import Mathlib

/-!
Shallow embedding of the crabml CPU tensor kernel core and proofs about it.

Modelling conventions:
  - Rust `f32` and `f16` values are idealised as exact rationals; floating
    point rounding of arithmetic and of the `f16` scale conversion is out of
    scope, except where a claim is decided by exact integer behaviour
    (rounding to the i8 grid and the saturating `as i8` cast, which we model
    faithfully).
  - Transcendental functions (`exp`, `cos`, `sin`, `powf`) are abstract
    parameters of the corresponding definitions.
  - Panics (failed assertions, out-of-bounds slice indexing) are modelled as
    `Option.none` / a dedicated error value where the claims need to observe
    them; code paths whose in-bounds behaviour is guaranteed by a theorem's
    hypotheses use total list access with a default.
-/

namespace Crabml

/-- A bounded for loop: `forRange n f a` runs the body `f` on loop counters
`0, 1, ..., n-1` in order, threading the state `a`; it is the shallow
embedding of Rust `for i in 0..n { ... }`. -/
def forRange (n : Nat) (f : α → Nat → α) (a : α) : α :=
  match n with
  | 0 => a
  | Nat.succ m => f (forRange m f a) m

/-- Pointwise update of a memory modelled as a function from flat indices. -/
def upd (c : Nat → ℚ) (i : Nat) (v : ℚ) : Nat → ℚ :=
  fun j => if j = i then v else c j

/-- Rust `f32::round`: round half away from zero, yielding an integer. -/
def rustRound (t : ℚ) : ℤ :=
  if 0 ≤ t then Int.floor (t + 1/2) else -Int.floor (-t + 1/2)

/-- Rust saturating float-to-`i8` cast applied to an already rounded
integer: clamp into `[-128, 127]`. -/
def satI8 (r : ℤ) : ℤ :=
  if r > 127 then 127 else if r < -128 then -128 else r

/-- The exact value of Rust `f32::MIN`, the most negative finite f32. -/
def f32MIN : ℚ := -(2 ^ 128 - 2 ^ 104)

/-- Sum of `f 0, ..., f (k-1)`, the value accumulated by a Rust loop
`for ki in 0..k { acc += f(ki) }`. -/
def sumRange (k : Nat) (f : Nat → ℚ) : ℚ :=
  forRange k (fun acc ki => acc + f ki) 0

/-! ## Q8_0 codec (src/backends/cpu/buf/buf_q8_0.rs) -/

/-- `BlockQ8_0`: an f16 scale `d` and 32 signed 8-bit quants `qs`.
The scale is idealised as a rational, the quants are integers. -/
structure BlockQ8_0 where
  d : ℚ
  qs : List ℤ
deriving DecidableEq

/-- The per-chunk maximum loop of `BlockQ8_0::quantize`: `max` starts at
`f32::MIN` and is replaced whenever `chunk[i] > max`. -/
def chunkMax (chunk : List ℚ) : ℚ :=
  chunk.foldl (fun m a => if a > m then a else m) f32MIN

/-- Quantization of one 32-element chunk in `BlockQ8_0::quantize`:
`d = max/127`, `qs[i] = (chunk[i] / d).round() as i8`. -/
def quantizeChunkQ8_0 (chunk : List ℚ) : BlockQ8_0 :=
  let m := chunkMax chunk
  let d := m / 127
  { d := d
    qs := (List.range 32).map (fun i => satI8 (rustRound (chunk.getD i 0 / d))) }

/-- `BlockQ8_0::quantize`: split the input into 32-element chunks and
quantize each chunk.  (The source indexes `chunk[i]` for `i` in `0..32`,
so it is only defined on inputs whose length is a multiple of 32;
our claims carry that hypothesis.) -/
def quantizeQ8_0 (data : List ℚ) : List BlockQ8_0 :=
  match data with
  | [] => []
  | a :: rest =>
    quantizeChunkQ8_0 ((a :: rest).take 32) :: quantizeQ8_0 ((a :: rest).drop 32)
termination_by data.length
decreasing_by
  simp only [List.length_drop, List.length_cons]
  omega

/-- `BlockQ8_0::dequantize`: `buf[i] = qs[i] as f32 * d` for `i` in `0..32`. -/
def dequantizeBlockQ8_0 (b : BlockQ8_0) : List ℚ :=
  (List.range 32).map (fun i => (b.qs.getD i 0 : ℚ) * b.d)

/-- Dequantization of a whole block sequence, flattening block after block. -/
def dequantizeBlocksQ8_0 (bs : List BlockQ8_0) : List ℚ :=
  bs.flatMap dequantizeBlockQ8_0

/-- The maximum absolute value over a chunk (the quantity the round-trip
claim measures the error against). -/
def absMax (chunk : List ℚ) : ℚ :=
  chunk.foldl (fun m a => max m |a|) 0

/-- The 32-element block of `x` containing flat index `i`. -/
def blockOf (x : List ℚ) (i : Nat) : List ℚ :=
  (x.drop (32 * (i / 32))).take 32

/-- `BlockQ8_0::from_bytes` reinterprets a byte slice as blocks after a
fatal assertion that the length is a multiple of `size_of::<BlockQ8_0>()`
= 34; the failed assertion (a panic) is `none`.  The reinterpretation
itself is modelled at block granularity: the payload carried by the bytes
is a block list, of which the byte slice holds `len / 34` blocks worth of
data. -/
def blockQ8_0FromBytesOk (len : Nat) : Option Nat :=
  if len % 34 = 0 then some (len / 34) else none

/-- `QuantBufQ8_0`: a borrowed byte region holding Q8_0 blocks.  The raw
bytes are modelled by the block list they decode to (`blocks`, the result
of the `f16`/`i8` reinterpretation, which we do not re-derive bit by bit)
together with their byte length `rawLen`, and the `num_blocks` field the
constructor computes. -/
structure QuantBufQ8_0 where
  rawLen : Nat
  blocks : List BlockQ8_0
  num_blocks : Nat
deriving DecidableEq

/-- `QuantBufQ8_0::from_bytes`: `num_blocks = buf.len() / 34`.  The length
assertion present in `BlockQ8_0::from_bytes` is commented out here, so the
constructor accepts every byte length and never fails. -/
def quantBufQ8_0FromBytes (len : Nat) (blocks : List BlockQ8_0) : QuantBufQ8_0 :=
  { rawLen := len, blocks := blocks, num_blocks := len / 34 }

/-- `QuantBufQ8_0::len`: `num_blocks * 32`. -/
def QuantBufQ8_0.len (b : QuantBufQ8_0) : Nat :=
  b.num_blocks * 32

/-- `QuantBufQ8_0::blocks` delegates to `BlockQ8_0::from_bytes`, whose
length assertion is live: on a misaligned byte length it panics (`none`). -/
def QuantBufQ8_0.blocksChecked (b : QuantBufQ8_0) : Option (List BlockQ8_0) :=
  if b.rawLen % 34 = 0 then some b.blocks else none

/-- The value `BlockBufIterQ8_0::next` yields at position `pos`: the
element `pos % 32` of the dequantization of block `pos / 32`. -/
def iterValQ8_0 (blocks : List BlockQ8_0) (pos : Nat) : ℚ :=
  (dequantizeBlockQ8_0 (blocks.getD (pos / 32) ⟨0, []⟩)).getD (pos % 32) 0

/-- Structural worker for `iterRangeQ8_0`: the fuel argument bounds the
remaining iterations (their number is at most `end_ - pos` whenever
`step ≥ 1`), making the definition reduce by rfl. -/
def iterRangeAuxQ8_0 (blocks : List BlockQ8_0) (step : Nat) :
    Nat → Nat → Nat → List ℚ
  | 0, _, _ => []
  | fuel + 1, pos, end_ =>
    if pos < end_ ∧ 0 < step then
      iterValQ8_0 blocks pos :: iterRangeAuxQ8_0 blocks step fuel (pos + step) end_
    else
      []

/-- The full element sequence produced by `QuantBufQ8_0::iter_range(start,
end, step)` driving `BlockBufIterQ8_0::next` to exhaustion: starting at
`pos = start`, while `pos < end` yield the dequantized element at `pos`
and advance by `step`.  (With `step = 0` the source iterator never
terminates; the model returns the empty sequence then, and every claim
uses `step = 1`.) -/
def iterRangeQ8_0 (blocks : List BlockQ8_0) (pos end_ step : Nat) : List ℚ :=
  iterRangeAuxQ8_0 blocks step (end_ - pos) pos end_

/-! ## Tensor buffer union (src/backends/cpu/buf/api.rs)

`GGMLType` and the Q8_1/Q4_0/Q4_1 buffer types live in source files that
are not part of the staged repository slice, so they are modelled from the
spec. -/

/-- Modelled from the spec: the dtype enumeration.  Section 3 fixes the
closed set `{F32, F16, Q8_0, Q8_1, Q4_0, Q4_1}`; `GGMLType` itself is
declared in the gguf module, which is not among the staged files. -/
inductive GGMLType where
  | F32
  | F16
  | Q8_0
  | Q8_1
  | Q4_0
  | Q4_1
deriving DecidableEq

/-- Modelled from the spec: a Q8_1 block (f16 scale `d`, f16 sum-of-quants
`s`, 32 signed quants); the declaring source file is not staged. -/
structure BlockQ8_1 where
  d : ℚ
  s : ℚ
  qs : List ℤ
deriving DecidableEq

/-- Modelled from the spec: a Q4_0 block (f16 scale `d`, 16 bytes packing
32 4-bit quants); the declaring source file is not staged. -/
structure BlockQ4_0 where
  d : ℚ
  qs : List ℤ
deriving DecidableEq

/-- Modelled from the spec: a Q4_1 block (f16 scale `d`, f16 min `m`,
16 bytes packing 32 4-bit quants); the declaring source file is not
staged. -/
structure BlockQ4_1 where
  d : ℚ
  m : ℚ
  qs : List ℤ
deriving DecidableEq

/-- `CpuTensorBuf` (api.rs): the tagged buffer union.  The F32 arm carries
a `Cow`; its owned-versus-borrowed tag is the boolean.  The quantized arms
carry the respective block sequences. -/
inductive CpuTensorBuf where
  | F32 (owned : Bool) (data : List ℚ)
  | Q8_0 (buf : QuantBufQ8_0)
  | Q8_1 (blocks : List BlockQ8_1)
  | Q4_0 (blocks : List BlockQ4_0)
  | Q4_1 (blocks : List BlockQ4_1)
deriving DecidableEq

/-- `CpuTensorBuf::dtype`. -/
def CpuTensorBuf.dtype : CpuTensorBuf → GGMLType
  | .F32 _ _ => .F32
  | .Q8_0 _ => .Q8_0
  | .Q8_1 _ => .Q8_1
  | .Q4_0 _ => .Q4_0
  | .Q4_1 _ => .Q4_1

/-- `CpuTensorBuf::is_quantized`: the source returns
`matches!(self, CpuTensorBuf::F32(_))`. -/
def CpuTensorBuf.isQuantized : CpuTensorBuf → Bool
  | .F32 _ _ => true
  | _ => false

/-- `CpuTensorBuf::vec_dot_rhs_dtype`. -/
def CpuTensorBuf.vecDotRhsDtype : CpuTensorBuf → GGMLType
  | .F32 _ _ => .F32
  | .Q8_0 _ => .Q8_0
  | .Q8_1 _ => .Q8_1
  | .Q4_0 _ => .Q8_0
  | .Q4_1 _ => .Q8_1

/-- The companion-dtype table exactly as the spec states it (section 4.1):
F32→F32, Q8_0→Q8_0, Q8_1→Q8_1, Q4_0→Q8_0, Q4_1→Q8_1; no row for F16. -/
def companionDtypeSpec : GGMLType → Option GGMLType
  | .F32 => some .F32
  | .Q8_0 => some .Q8_0
  | .Q8_1 => some .Q8_1
  | .Q4_0 => some .Q8_0
  | .Q4_1 => some .Q8_1
  | .F16 => none

/-- Errors observable from the fallible buffer and tensor operations.
`TensorError` payloads record what the Rust code interpolates into the
message string. -/
inductive TErr where
  | quantizeUnsupported (target : GGMLType)
  | dequantizeUnsupported (target : GGMLType)
  | wrongDims (required : List Nat) (got : Nat)
  | matmulShapeMismatch (wShape xShape : List Nat)
  | notContiguous
deriving DecidableEq

/-- `QuantBufQ8_0::quantize` (buf_q8_0.rs): quantize an f32 slice into an
owned Q8_0 buffer; `num_blocks` matches the block count. -/
def quantBufQ8_0Quantize (data : List ℚ) : QuantBufQ8_0 :=
  let bs := quantizeQ8_0 data
  { rawLen := 34 * bs.length, blocks := bs, num_blocks := bs.length }

/-- Modelled from the spec: Q8_1 quantization (scale `(max-min)/255` with a
recorded sum `s`); its source file is not staged.  Only the fact that it
totally produces a Q8_1 buffer matters to the claims. -/
def quantBufQ8_1Quantize (data : List ℚ) : List BlockQ8_1 :=
  data.map (fun a => { d := a, s := a, qs := [] })

/-- Modelled from the spec: Q4_0 quantization (scale `absmax/(-8)`); its
source file is not staged. -/
def quantBufQ4_0Quantize (data : List ℚ) : List BlockQ4_0 :=
  data.map (fun a => { d := a, qs := [] })

/-- Modelled from the spec: Q4_1 quantization (range `(max-min)/15` with
recorded min `m`); its source file is not staged. -/
def quantBufQ4_1Quantize (data : List ℚ) : List BlockQ4_1 :=
  data.map (fun a => { d := a, m := a, qs := [] })

/-- `CpuTensorBuf::as_f32_ref`: panics (`none`) unless the buffer is F32. -/
def CpuTensorBuf.asF32Ref : CpuTensorBuf → Option (List ℚ)
  | .F32 _ data => some data
  | _ => none

/-- `CpuTensorBuf::quantize(dtype)`: match on the target dtype; the five
handled arms quantize `self.as_f32_ref()` (a panic — `none` — when `self`
is not F32), the wildcard arm returns a recoverable error. -/
def CpuTensorBuf.quantize (b : CpuTensorBuf) (dtype : GGMLType) :
    Option (Except TErr CpuTensorBuf) :=
  match dtype with
  | .F32 => (b.asF32Ref).map (fun data => .ok (.F32 true data))
  | .Q8_0 => (b.asF32Ref).map (fun data => .ok (.Q8_0 (quantBufQ8_0Quantize data)))
  | .Q8_1 => (b.asF32Ref).map (fun data => .ok (.Q8_1 (quantBufQ8_1Quantize data)))
  | .Q4_0 => (b.asF32Ref).map (fun data => .ok (.Q4_0 (quantBufQ4_0Quantize data)))
  | .Q4_1 => (b.asF32Ref).map (fun data => .ok (.Q4_1 (quantBufQ4_1Quantize data)))
  | .F16 => some (.error (.quantizeUnsupported .F16))

/-! ## CpuTensor and the arithmetic primitives (src/tensor/arithmetic.rs)

The `CpuTensor` struct itself (shape, strides, `is_contiguous`,
`iter_axis`) is declared in a source file that is not part of the staged
slice; those pieces are modelled from the spec's shape/stride descriptor
(section 3 and 4.3).  The primitives below are embedded from
arithmetic.rs. -/

/-- Modelled from the spec: a tensor is a flat f32 buffer viewed through a
shape/stride descriptor (extents and strides in element units). -/
structure CpuTensor where
  buf : List ℚ
  shape : List Nat
  strides : List Nat
deriving DecidableEq

/-- Modelled from the spec: contiguous strides are the reverse cumulative
product of the shape (glossary: a linear scan touches memory in order). -/
def contigStrides : List Nat → List Nat
  | [] => []
  | _ :: rest => (contigStrides rest).headD 1 * rest.headD 1 :: contigStrides rest

/-- Modelled from the spec: the contiguity test compares the strides with
the reverse cumulative product of the shape. -/
def CpuTensor.isContiguous (t : CpuTensor) : Bool :=
  t.strides = contigStrides t.shape

/-- Flat offset of a multi-index under the strides. -/
def flatOffset (strides origin : List Nat) : Nat :=
  (origin.zip strides).foldl (fun acc p => acc + p.1 * p.2) 0

/-- Modelled from the spec: `iter_axis(origin, axis)` walks the chosen
axis from the origin, advancing by that axis's stride, stopping at the
extent (section 4.3). -/
def CpuTensor.iterAxis (t : CpuTensor) (origin : List Nat) (axis : Nat) : List ℚ :=
  let off := flatOffset t.strides origin
  let s := t.strides.getD axis 0
  (List.range (t.shape.getD axis 0)).map (fun i => t.buf.getD (off + i * s) 0)

/-- `require_tensor_dims`: recoverable error unless the rank is listed. -/
def requireTensorDims (t : CpuTensor) (dims : List Nat) : Except TErr Unit :=
  if t.shape.length ∈ dims then .ok () else .error (.wrongDims dims t.shape.length)

/-- `require_tensor_matmul_2d_shapes`: recoverable error when
`t1.shape[1] != t2.shape[0]`, carrying both offending shapes. -/
def requireTensorMatmul2dShapes (t1 t2 : CpuTensor) : Except TErr Unit :=
  if t1.shape.getD 1 0 = t2.shape.getD 0 0 then .ok ()
  else .error (.matmulShapeMismatch t1.shape t2.shape)

/-- `require_tensor_contiguous`: recoverable error on a non-contiguous
tensor. -/
def requireTensorContiguous (t : CpuTensor) : Except TErr Unit :=
  if t.isContiguous then .ok () else .error .notContiguous

/-- Dot product of two equal-walk element streams, as the
`w_iter.zip(x_iter).map(|(w, x)| w * x).sum()` pattern computes it. -/
def zipDot (a b : List ℚ) : ℚ :=
  ((a.zip b).map (fun p => p.1 * p.2)).foldl (· + ·) 0

/-- `tensor_matmul_specialized_2d_1d`: row `w_row` of the output is the
dot of `wb[w_row*x_dim .. (w_row+1)*x_dim]` with the whole of `xb`. -/
def tensorMatmulSpecialized2d1d (w x : CpuTensor) : CpuTensor :=
  let xDim := x.buf.length
  let out := (List.range (w.shape.getD 0 0)).map (fun wRow =>
    zipDot ((w.buf.drop (wRow * xDim)).take xDim) x.buf)
  { buf := out, shape := [w.shape.getD 0 0], strides := contigStrides [w.shape.getD 0 0] }

/-- `tensor_matmul_2d` (arithmetic.rs): the four requirement checks in
source order, then one of the three compute paths (specialized contiguous
1-D rhs, generic 1-D rhs, 2-D rhs). -/
def tensorMatmul2d (w x : CpuTensor) : Except TErr CpuTensor := do
  let _ ← requireTensorDims w [2]
  let _ ← requireTensorDims x [1, 2]
  let _ ← requireTensorMatmul2dShapes w x
  let _ ← requireTensorContiguous w
  if x.isContiguous ∧ x.shape.length = 1 then
    return tensorMatmulSpecialized2d1d w x
  else if x.shape.length = 1 then
    let rows := w.shape.getD 0 0
    let out := (List.range rows).map (fun wRow =>
      zipDot (w.iterAxis [wRow, 0] 1) (x.iterAxis [0] 0))
    return { buf := out, shape := [rows], strides := contigStrides [rows] }
  else
    let rows := w.shape.getD 0 0
    let cols := x.shape.getD 1 0
    let out := (List.range rows).flatMap (fun wRow =>
      (List.range cols).map (fun xCol =>
        zipDot (w.iterAxis [wRow, 0] 1) (x.iterAxis [0, xCol] 0)))
    return { buf := out, shape := [rows, cols], strides := contigStrides [rows, cols] }

/-- The running maximum `tensor_softmax_inplace` computes: a fold over the
first `limit` elements starting from `f32::NAN`, with `f32::max` — NaN as
the accumulator is replaced by the first element, so the fold state is
modelled as `Option ℚ` with `none` for the initial NaN. -/
def nanMaxFold (xs : List ℚ) : Option ℚ :=
  xs.foldl (fun acc b => some (match acc with | none => b | some a => max a b)) none

/-- One logical element of a rank-1 tensor: the buffer cell at `i * stride`. -/
def elemAt (buf : List ℚ) (s i : Nat) : ℚ :=
  buf.getD (i * s) 0

/-- The second pass of `tensor_softmax_inplace`: for each `i < limit`,
overwrite element `i` with `exp(x[i] - max)` while summing the written
values.  State: the buffer and the running sum. -/
def softmaxExpPass (e : ℚ → ℚ) (m : ℚ) (s limit : Nat) (buf : List ℚ) :
    List ℚ × ℚ :=
  forRange limit
    (fun st i =>
      let v := e (elemAt st.1 s i - m)
      (st.1.set (i * s) v, st.2 + v))
    (buf, 0)

/-- The third pass of `tensor_softmax_inplace`: divide the first `limit`
elements by the accumulated sum. -/
def softmaxDivPass (total : ℚ) (s limit : Nat) (buf : List ℚ) : List ℚ :=
  forRange limit (fun b i => b.set (i * s) (elemAt b s i / total)) buf

/-- `tensor_softmax_inplace(t, limit)` (arithmetic.rs): require rank 1,
compute the NaN-seeded running max over the first `limit` elements, then
exponentiate-and-sum in place, then divide in place.  `e` abstracts
`f32::exp`. -/
def tensorSoftmaxInplace (e : ℚ → ℚ) (t : CpuTensor) (limit : Nat) :
    Except TErr CpuTensor := do
  let _ ← requireTensorDims t [1]
  let s := t.strides.getD 0 0
  let m := (nanMaxFold ((t.iterAxis [0] 0).take limit)).getD 0
  let st := softmaxExpPass e m s limit t.buf
  let buf2 := softmaxDivPass st.2 s limit st.1
  return { t with buf := buf2 }

/-- One iteration of the `tensor_rope_inplace` loop body for one vector:
read `vec[i]` and `vec[i+1]` (a panic — `none` — when out of bounds, as
in Rust slice indexing) and write the rotated pair back. -/
def ropeRotatePair (vec : List ℚ) (i : Nat) (fcr fci : ℚ) : Option (List ℚ) :=
  if i + 1 < vec.length then
    let v0 := vec.getD i 0
    let v1 := vec.getD (i + 1) 0
    some ((vec.set i (v0 * fcr - v1 * fci)).set (i + 1) (v0 * fci + v1 * fcr))
  else
    none

/-- The loop of `tensor_rope_inplace` over `i in (0..kv_dim).step_by(2)`,
recursing with `i += 2`; each iteration rotates the pair at `i` in `q`
(the `v = 0` arm) and then in `k` (the `v = 1` arm; `rotn` is always 2
because `i < kv_dim` inside the loop).  `fcr`/`fci` are `cos θ`/`sin θ`
for the angle the source computes from `pos`, `freq_base`, `freq_scale`
and `head_size`; the trigonometry is abstracted by `angleCos`/`angleSin`
applied to the loop position. -/
def ropeLoop (angleCos angleSin : Nat → ℚ) (kvDim : Nat) (i : Nat)
    (q k : List ℚ) : Option (List ℚ × List ℚ) :=
  if _h : i < kvDim then
    match ropeRotatePair q i (angleCos i) (angleSin i) with
    | none => none
    | some q2 =>
      match ropeRotatePair k i (angleCos i) (angleSin i) with
      | none => none
      | some k2 => ropeLoop angleCos angleSin kvDim (i + 2) q2 k2
  else
    some (q, k)
termination_by kvDim - i
decreasing_by omega

/-- `tensor_rope_inplace(q, k, pos, freq_base, freq_scale)`
(arithmetic.rs): require both tensors contiguous and rank 2, let
`kv_dim` be the product of `k`'s shape, and rotate the flat pairs of `q`
and `k` at even indices below `kv_dim`.  Recoverable errors and panics
are both `none`; the claims concern the successful executions. -/
def tensorRopeInplace (angleCos angleSin : Nat → ℚ) (q k : CpuTensor) :
    Option (CpuTensor × CpuTensor) :=
  if q.isContiguous ∧ k.isContiguous ∧ q.shape.length = 2 ∧ k.shape.length = 2 then
    let kvDim := k.shape.foldl (· * ·) 1
    match ropeLoop angleCos angleSin kvDim 0 q.buf k.buf with
    | none => none
    | some (qb, kb) => some ({ q with buf := qb }, { k with buf := kb })
  else
    none

/-! ## Batched matmul (src/backends/cpu/primitives/batch_matmul.rs) -/

/-- Modelled from the spec: `TensorStrider`, the shape/stride descriptor
handed to the batch matmul primitive (its declaring file is not staged;
the primitive only reads `shape()` and `strides()`). -/
structure TensorStrider where
  shape : List Nat
  strides : List Nat
deriving DecidableEq

/-- The innermost `ki` loop of `batch_matmul_naive_f32`: repeatedly
`bufc[cell] += bufa[...] * bufb[...]`. -/
def bmmKiLoop (c : Nat → ℚ) (cell k : Nat) (term : Nat → ℚ) : Nat → ℚ :=
  forRange k (fun c ki => upd c cell (c cell + term ki)) c

/-- `batch_matmul_naive_f32` (batch_matmul.rs): the quadruple loop over
`(bi, mi, ni, ki)` accumulating
`bufa[bi*sa0 + mi*sa1 + ki*sa2] * bufb[(bi % b_batch)*sb0 + ki*sb1 + ni*sb2]`
into `bufc[bi*(m*n) + mi*n + ni]`.  The leading
`assert!(a_batch >= b_batch)` is a panic (`none`) when it fails.
Buffers are modelled as flat memories `Nat → ℚ`. -/
def batchMatmulNaiveF32 (bufa bufb bufc : Nat → ℚ) (s1 s2 : TensorStrider) :
    Option (Nat → ℚ) :=
  let aBatch := s1.shape.getD 0 0
  let bBatch := s2.shape.getD 0 0
  if aBatch < bBatch then none else
  let m := s1.shape.getD 1 0
  let k := s1.shape.getD 2 0
  let n := s2.shape.getD 2 0
  let term := fun bi mi ni ki =>
    bufa (bi * s1.strides.getD 0 0 + mi * s1.strides.getD 1 0 + ki * s1.strides.getD 2 0) *
    bufb ((bi % bBatch) * s2.strides.getD 0 0 + ki * s2.strides.getD 1 0 +
      ni * s2.strides.getD 2 0)
  some (forRange aBatch (fun c bi =>
    forRange m (fun c mi =>
      forRange n (fun c ni =>
        bmmKiLoop c (bi * (m * n) + mi * n + ni) k (term bi mi ni)) c) c) bufc)

/-- Restriction of a flat memory to the window starting at `base`, the
view a batch chunk of A occupies. -/
def shiftMem (f : Nat → ℚ) (base : Nat) : Nat → ℚ :=
  fun j => f (base + j)

/-- A concrete rank-1 tensor used to instantiate the softmax theorem. -/
def softmaxSampleTensor : CpuTensor :=
  { buf := [1, 2, 3], shape := [3], strides := [1] }

/-- The running maximum the softmax computes on the sample tensor with
limit 2. -/
def softmaxSampleMax : ℚ :=
  (nanMaxFold ((softmaxSampleTensor.iterAxis [0] 0).take 2)).getD 0

/-! ## Theorems -/

theorem forRange_zero (f : α → Nat → α) (a : α) : forRange 0 f a = a := rfl

theorem forRange_succ (n : Nat) (f : α → Nat → α) (a : α) :
    forRange (n + 1) f a = f (forRange n f a) n := rfl

theorem sumRange_zero (f : Nat → ℚ) : sumRange 0 f = 0 := rfl

theorem sumRange_succ (k : Nat) (f : Nat → ℚ) :
    sumRange (k + 1) f = sumRange k f + f k := rfl

theorem upd_same (c : Nat → ℚ) (i : Nat) (v : ℚ) : upd c i v i = v := by
  simp [upd]

theorem upd_other (c : Nat → ℚ) (i j : Nat) (v : ℚ) (h : j ≠ i) :
    upd c i v j = c j := by
  simp [upd, h]

/-- Claim C2 helper and claims live below; first the generic claim
theorems with direct proofs. -/
theorem companion_spec_total_on_buf (b : CpuTensorBuf) :
    companionDtypeSpec b.dtype ≠ none := by
  cases b <;> simp [CpuTensorBuf.dtype, companionDtypeSpec]

/-- C2: for every tensor buffer variant, `vec_dot_rhs_dtype` returns the
companion dtype of the table (F32→F32, Q8_0→Q8_0, Q8_1→Q8_1, Q4_0→Q8_0,
Q4_1→Q8_1): the source function agrees with the spec's table at the
buffer's dtype. -/
theorem vec_dot_rhs_dtype_follows_companion_table (b : CpuTensorBuf) :
    companionDtypeSpec b.dtype = some b.vecDotRhsDtype := by
  cases b <;> rfl

/-- C3: evaluation at the failing input.  A 35-byte slice is not a
multiple of the 34-byte block size, yet `QuantBufQ8_0::from_bytes`
accepts it (the length assertion is commented out) and produces a
1-block buffer of logical length 32, while the inner
`BlockQ8_0::from_bytes` — which `blocks()` delegates to — panics on
the same length.  On an aligned 68-byte slice the element count is
`(68 / 34) * 32 = 64` as the claim states. -/
theorem from_bytes_accepts_misaligned_length :
    (quantBufQ8_0FromBytes 35 []).num_blocks = 1 ∧
    (quantBufQ8_0FromBytes 35 []).len = 32 ∧
    blockQ8_0FromBytesOk 35 = none ∧
    (quantBufQ8_0FromBytes 68 []).len = (68 / 34) * 32 := by
  refine ⟨rfl, rfl, ?_, rfl⟩
  simp [blockQ8_0FromBytesOk]

/-- C7 counterexample: a well-typed F32 source buffer quantized to F16 —
one of the six known dtypes — falls into the wildcard arm and returns a
recoverable error, contradicting the claim that all six targets
succeed. -/
theorem quantize_to_f16_returns_error :
    (CpuTensorBuf.F32 true [1]).quantize .F16 =
      some (.error (.quantizeUnsupported .F16)) := rfl

/-- C7 as amended: for every F32 buffer, `quantize(target)` returns `Ok`
exactly for the five handled targets (F32, Q8_0, Q8_1, Q4_0, Q4_1) and a
recoverable error for F16; the source buffer is taken by shared
reference and is unchanged. -/
theorem quantize_ok_iff_target_not_f16 (owned : Bool) (data : List ℚ)
    (t : GGMLType) :
    (∃ out, (CpuTensorBuf.F32 owned data).quantize t = some (Except.ok out)) ↔
      t ≠ GGMLType.F16 := by
  cases t <;> simp [CpuTensorBuf.quantize, CpuTensorBuf.asF32Ref]

/-- C8: evaluation at the failing input.  `is_quantized` returns `true`
for an F32 buffer and `false` for a Q8_0 buffer — the exact opposite of
the claimed (and spec-stated) behaviour; the spec itself flags the F32
arm as a bug in the source. -/
theorem is_quantized_is_inverted :
    (CpuTensorBuf.F32 false [1]).isQuantized = true ∧
    (CpuTensorBuf.Q8_0 (quantBufQ8_0FromBytes 34 [⟨1, List.replicate 32 1⟩])).isQuantized
      = false := ⟨rfl, rfl⟩

/-- The value yielded at a position, written through to the block list:
element `pos % 32` of the dequantized block `pos / 32`. -/
theorem iterValQ8_0_eq (blocks : List BlockQ8_0) (pos : Nat) :
    iterValQ8_0 blocks pos =
      ((blocks.getD (pos / 32) ⟨0, []⟩).qs.getD (pos % 32) 0 : ℚ) *
        (blocks.getD (pos / 32) ⟨0, []⟩).d := by
  have h : pos % 32 < 32 := Nat.mod_lt _ (by norm_num)
  simp [iterValQ8_0, dequantizeBlockQ8_0, List.getD_eq_getElem?_getD, h]

theorem iterRangeAuxQ8_0_length (blocks : List BlockQ8_0) :
    ∀ (fuel pos end_ : Nat),
      (iterRangeAuxQ8_0 blocks 1 fuel pos end_).length = min fuel (end_ - pos) := by
  intro fuel
  induction fuel with
  | zero => intro pos end_; simp [iterRangeAuxQ8_0]
  | succ fuel ih =>
    intro pos end_
    by_cases h : pos < end_
    · simp [iterRangeAuxQ8_0, h, ih]
      omega
    · simp [iterRangeAuxQ8_0, h]
      omega

/-- With step 1 the iterator yields exactly `end - start` elements. -/
theorem iterRangeQ8_0_length (blocks : List BlockQ8_0) (pos end_ : Nat) :
    (iterRangeQ8_0 blocks pos end_ 1).length = end_ - pos := by
  simp [iterRangeQ8_0, iterRangeAuxQ8_0_length]

/-! Helper lemmas for the Q8_0 quantize/dequantize round trip (C1). -/

theorem floor_add_half_close (s : ℚ) : |s - Int.floor (s + 1/2)| ≤ 1/2 := by
  have h1 : (Int.floor (s + 1/2) : ℚ) ≤ s + 1/2 := Int.floor_le _
  have h2 : s + 1/2 - 1 < Int.floor (s + 1/2) := Int.sub_one_lt_floor _
  rw [abs_le]
  constructor <;> linarith

theorem rustRound_close (t : ℚ) : |t - rustRound t| ≤ 1/2 := by
  unfold rustRound
  by_cases h : 0 ≤ t
  · simpa [h] using floor_add_half_close t
  · have := floor_add_half_close (-t)
    simp only [h, if_false, Int.cast_neg]
    rw [show t - -(Int.floor (-t + 1/2) : ℚ) = -(-t - Int.floor (-t + 1/2)) by ring,
      abs_neg]
    exact this

theorem rustRound_bounds (t : ℚ) (h : |t| ≤ 127) :
    -128 ≤ rustRound t ∧ rustRound t ≤ 127 := by
  have hc := rustRound_close t
  have habs : |(rustRound t : ℚ)| < 128 := by
    calc |(rustRound t : ℚ)| = |t - (t - rustRound t)| := by ring_nf
    _ ≤ |t| + |t - rustRound t| := by
        have := abs_sub (t) (t - rustRound t)
        exact abs_sub t (t - rustRound t)
    _ ≤ 127 + 1/2 := add_le_add h hc
    _ < 128 := by norm_num
  rw [abs_lt] at habs
  constructor
  · have h1 : (-128 : ℤ) < rustRound t := by exact_mod_cast habs.1
    omega
  · have h2 : rustRound t < (128 : ℤ) := by exact_mod_cast habs.2
    omega

theorem satI8_eq_self (r : ℤ) (h1 : -128 ≤ r) (h2 : r ≤ 127) : satI8 r = r := by
  unfold satI8
  split_ifs with ha hb
  · omega
  · omega
  · rfl

theorem rustRound_zero : rustRound 0 = 0 := by
  unfold rustRound
  rw [if_pos le_rfl]
  rw [Int.floor_eq_zero_iff]
  constructor <;> norm_num

theorem chunkMax_eq_foldl_max (c : List ℚ) :
    chunkMax c = c.foldl max f32MIN := by
  unfold chunkMax
  congr 1
  funext m a
  rcases lt_or_ge m a with h | h
  · simp [h, max_eq_right h.le]
  · simp [not_lt.mpr h, max_eq_left h]

theorem foldl_max_ge_init (c : List ℚ) : ∀ init : ℚ, init ≤ c.foldl max init := by
  induction c with
  | nil => intro init; simp
  | cons b rest ih =>
    intro init
    calc init ≤ max init b := le_max_left _ _
    _ ≤ rest.foldl max (max init b) := ih _

theorem foldl_max_ge_mem (c : List ℚ) :
    ∀ (init a : ℚ), a ∈ c → a ≤ c.foldl max init := by
  induction c with
  | nil => intro _ a ha; cases ha
  | cons b rest ih =>
    intro init a ha
    rcases List.mem_cons.mp ha with rfl | hmem
    · calc a ≤ max init a := le_max_right _ _
      _ ≤ rest.foldl max (max init a) := foldl_max_ge_init _ _
    · exact ih _ _ hmem

theorem foldl_max_mem_or_init (c : List ℚ) :
    ∀ init : ℚ, c.foldl max init ∈ c ∨ c.foldl max init = init := by
  induction c with
  | nil => intro init; right; rfl
  | cons b rest ih =>
    intro init
    rcases ih (max init b) with h | h
    · left; exact List.mem_cons_of_mem _ h
    · rcases max_choice init b with hm | hm
      · right; rw [List.foldl_cons, h, hm]
      · left; rw [List.foldl_cons, h, hm]; exact List.mem_cons_self _ _

theorem absMax_eq_foldl_max (c : List ℚ) :
    absMax c = (c.map (fun a => |a|)).foldl max 0 := by
  unfold absMax
  rw [List.foldl_map]

theorem absMax_nonneg (c : List ℚ) : 0 ≤ absMax c := by
  rw [absMax_eq_foldl_max]
  exact foldl_max_ge_init _ 0

theorem abs_le_absMax (c : List ℚ) (a : ℚ) (ha : a ∈ c) : |a| ≤ absMax c := by
  rw [absMax_eq_foldl_max]
  exact foldl_max_ge_mem _ 0 |a| (List.mem_map_of_mem _ ha)

theorem f32MIN_neg : f32MIN < 0 := by
  unfold f32MIN
  norm_num

/-- The dequantized value at a position of a quantized chunk, written
through the definitions. -/
theorem dequant_quantizeChunk_getD (c : List ℚ) (j : Nat) (hj : j < 32) :
    (dequantizeBlockQ8_0 (quantizeChunkQ8_0 c)).getD j 0 =
      (satI8 (rustRound (c.getD j 0 / (chunkMax c / 127))) : ℚ) *
        (chunkMax c / 127) := by
  simp [dequantizeBlockQ8_0, quantizeChunkQ8_0, List.getD_eq_getElem?_getD, hj]

/-- The per-chunk round-trip bound: if the chunk's running maximum
dominates every element in absolute value, each reconstructed element is
within `absmax/127` of the original. -/
theorem q8_0_chunk_roundtrip (c : List ℚ) (hlen : c.length = 32)
    (hdom : ∀ a ∈ c, |a| ≤ chunkMax c) :
    ∀ j < 32, |(dequantizeBlockQ8_0 (quantizeChunkQ8_0 c)).getD j 0 -
        c.getD j 0| ≤ absMax c / 127 := by
  intro j hj
  rw [dequant_quantizeChunk_getD c j hj]
  set M := chunkMax c with hMdef
  set x := c.getD j 0 with hxdef
  have hxmem : x ∈ c := by
    have hjl : j < c.length := by omega
    rw [hxdef, List.getD_eq_getElem c 0 hjl]
    exact List.getElem_mem hjl
  have hx : |x| ≤ M := hdom x hxmem
  have hM0 : 0 ≤ M := le_trans (abs_nonneg x) hx
  have hMabs : M ≤ absMax c := by
    rcases foldl_max_mem_or_init c f32MIN with h | h
    · rw [chunkMax_eq_foldl_max] at hMdef
      have : M ∈ c := by rw [hMdef]; exact h
      exact le_trans (le_abs_self M) (abs_le_absMax c M this)
    · exfalso
      rw [chunkMax_eq_foldl_max] at hMdef
      rw [hMdef, h] at hM0
      exact absurd hM0 (not_le.mpr f32MIN_neg)
  by_cases hM : M = 0
  · have hx0 : x = 0 := by
      rw [hM] at hx
      exact abs_eq_zero.mp (le_antisymm hx (abs_nonneg x))
    rw [hM, hx0]
    simp [rustRound_zero, satI8]
    exact div_nonneg (absMax_nonneg c) (by norm_num)
  · have hMpos : 0 < M := lt_of_le_of_ne hM0 (Ne.symm hM)
    have hd : 0 < M / 127 := div_pos hMpos (by norm_num)
    set d := M / 127 with hddef
    have htabs : |x / d| ≤ 127 := by
      rw [abs_div, abs_of_pos hd, div_le_iff₀ hd]
      calc |x| ≤ M := hx
      _ = 127 * d := by rw [hddef]; field_simp
    obtain ⟨hb1, hb2⟩ := rustRound_bounds (x / d) htabs
    rw [satI8_eq_self _ hb1 hb2]
    have hxd : rustRound (x / d) * d - x = (rustRound (x / d) - x / d) * d := by
      field_simp
    rw [hxd, abs_mul, abs_of_pos hd]
    have hclose : |(rustRound (x / d) : ℚ) - x / d| ≤ 1/2 := by
      rw [abs_sub_comm]
      exact rustRound_close (x / d)
    calc |(rustRound (x / d) : ℚ) - x / d| * d ≤ (1/2) * d :=
      mul_le_mul_of_nonneg_right hclose hd.le
    _ ≤ 1 * d := mul_le_mul_of_nonneg_right (by norm_num) hd.le
    _ = d := one_mul d
    _ ≤ absMax c / 127 := by
      rw [hddef]
      exact (div_le_div_iff_of_pos_right (by norm_num : (0:ℚ) < 127)).mpr hMabs

theorem rustRound_intCast (z : ℤ) : rustRound (z : ℚ) = z := by
  unfold rustRound
  by_cases h : (0 : ℚ) ≤ z
  · rw [if_pos h, Int.floor_int_add]
    norm_num
  · rw [if_neg h, show (-(z:ℚ) + 1/2) = ((-z : ℤ) : ℚ) + 1/2 by push_cast; ring,
      Int.floor_int_add]
    norm_num

theorem quantizeQ8_0_cons (a : ℚ) (rest : List ℚ) :
    quantizeQ8_0 (a :: rest) =
      quantizeChunkQ8_0 ((a :: rest).take 32) :: quantizeQ8_0 ((a :: rest).drop 32) := by
  rw [quantizeQ8_0]

theorem dequantizeBlocksQ8_0_cons (b : BlockQ8_0) (bs : List BlockQ8_0) :
    dequantizeBlocksQ8_0 (b :: bs) =
      dequantizeBlockQ8_0 b ++ dequantizeBlocksQ8_0 bs := by
  simp [dequantizeBlocksQ8_0]

theorem dequantizeBlockQ8_0_length (b : BlockQ8_0) :
    (dequantizeBlockQ8_0 b).length = 32 := by
  simp [dequantizeBlockQ8_0]

theorem blockOf_small (x : List ℚ) (i : Nat) (hi : i < 32) :
    blockOf x i = x.take 32 := by
  unfold blockOf
  rw [Nat.div_eq_of_lt hi]
  simp

theorem blockOf_shift (x : List ℚ) (i : Nat) (hi : 32 ≤ i) :
    blockOf x i = blockOf (x.drop 32) (i - 32) := by
  unfold blockOf
  rw [List.drop_drop]
  congr 2
  omega

theorem getD_take32 (l : List ℚ) (i : Nat) (h : i < 32) :
    (l.take 32).getD i 0 = l.getD i 0 := by
  simp [List.getD_eq_getElem?_getD, List.getElem?_take, h]

theorem getD_drop32 (l : List ℚ) (i : Nat) :
    (l.drop 32).getD i 0 = l.getD (32 + i) 0 := by
  simp [List.getD_eq_getElem?_getD, List.getElem?_drop]

/-- Induction worker for the round-trip theorem, descending one 32-element
chunk at a time, mirroring the recursion of `quantizeQ8_0`. -/
theorem q8_0_roundtrip_aux :
    ∀ (n : Nat) (x : List ℚ), x.length = n → n % 32 = 0 →
      (∀ i < x.length, ∀ b ∈ blockOf x i, |b| ≤ chunkMax (blockOf x i)) →
      ∀ i < x.length,
        |(dequantizeBlocksQ8_0 (quantizeQ8_0 x)).getD i 0 - x.getD i 0| ≤
          absMax (blockOf x i) / 127 := by
  intro n
  induction n using Nat.strong_induction_on with
  | _ n ih =>
    intro x hlen h32n hdom i hi
    match x with
    | [] =>
      simp at hi
    | a :: rest =>
      have hn32 : 32 ≤ n := by
        have h0 : 0 < n := by rw [← hlen]; simp
        omega
      have hxlen : (a :: rest).length = n := hlen
      have htake : ((a :: rest).take 32).length = 32 := by
        rw [List.length_take]
        omega
      rw [quantizeQ8_0_cons, dequantizeBlocksQ8_0_cons]
      by_cases hsmall : i < 32
      · rw [List.getD_append _ _ _ _ (by rw [dequantizeBlockQ8_0_length]; omega)]
        have hbl : blockOf (a :: rest) i = (a :: rest).take 32 :=
          blockOf_small _ _ hsmall
        have hdomc : ∀ b ∈ (a :: rest).take 32, |b| ≤ chunkMax ((a :: rest).take 32) := by
          have := hdom i hi
          rw [hbl] at this
          exact this
        have hchunk := q8_0_chunk_roundtrip ((a :: rest).take 32) htake hdomc i hsmall
        rw [hbl, ← getD_take32 (a :: rest) i hsmall]
        exact hchunk
      · push_neg at hsmall
        rw [List.getD_append_right _ _ _ _ (by rw [dequantizeBlockQ8_0_length]; omega),
          dequantizeBlockQ8_0_length]
        have hrest : ((a :: rest).drop 32).length = n - 32 := by
          rw [List.length_drop]
          omega
        have hdomr : ∀ i2 < ((a :: rest).drop 32).length,
            ∀ b ∈ blockOf ((a :: rest).drop 32) i2,
              |b| ≤ chunkMax (blockOf ((a :: rest).drop 32) i2) := by
          intro i2 hi2 b hb
          have hsh := blockOf_shift (a :: rest) (i2 + 32) (by omega)
          rw [show i2 + 32 - 32 = i2 by omega] at hsh
          rw [← hsh] at hb ⊢
          exact hdom (i2 + 32) (by omega) b hb
        have hrec := ih (n - 32) (by omega) ((a :: rest).drop 32) hrest (by omega)
          hdomr (i - 32) (by omega)
        rw [getD_drop32 (a :: rest) (i - 32), show 32 + (i - 32) = i by omega] at hrec
        have hsh := blockOf_shift (a :: rest) i hsmall
        rw [← hsh] at hrec
        exact hrec

/-- C1 counterexample: the claim as stated is false on the code.  For the
block `[-100, 1, ..., 1]` (length 32, so the length hypothesis holds), the
source scales by the signed maximum `1` — not the maximum absolute value
`100` — so the quant for `-100` saturates at `-128` and the reconstructed
element `-128/127` is about `99` away from `-100`, far beyond the claimed
`absmax/127 = 100/127`. -/
theorem q8_0_roundtrip_bound_fails_on_negative_input :
    ((-100 :: List.replicate 31 1 : List ℚ).length % 32 = 0) ∧
    ¬ (|(dequantizeBlocksQ8_0 (quantizeQ8_0 ((-100 : ℚ) :: List.replicate 31 1))).getD 0 0 -
          ((-100 : ℚ) :: List.replicate 31 1).getD 0 0| ≤
        absMax (blockOf ((-100 : ℚ) :: List.replicate 31 1) 0) / 127) := by
  constructor
  · simp
  · have hM : chunkMax ((-100 : ℚ) :: List.replicate 31 1) = 1 := by
      norm_num [chunkMax, f32MIN, List.replicate_succ]
    have hq : quantizeQ8_0 ((-100 : ℚ) :: List.replicate 31 1) =
        [quantizeChunkQ8_0 ((-100 : ℚ) :: List.replicate 31 1)] := by
      rw [quantizeQ8_0_cons]
      norm_num [List.take_of_length_le, List.drop_eq_nil_of_le]
      rw [quantizeQ8_0]
    have hval : (dequantizeBlocksQ8_0
        (quantizeQ8_0 ((-100 : ℚ) :: List.replicate 31 1))).getD 0 0 = -128 / 127 := by
      rw [hq, dequantizeBlocksQ8_0_cons]
      rw [List.getD_append _ _ _ _ (by rw [dequantizeBlockQ8_0_length]; omega)]
      rw [show quantizeChunkQ8_0 ((-100 : ℚ) :: List.replicate 31 1) =
          quantizeChunkQ8_0 (((-100 : ℚ) :: List.replicate 31 1).take 32) by
        rw [List.take_of_length_le (by simp)]]
      rw [dequant_quantizeChunk_getD _ 0 (by omega)]
      rw [List.take_of_length_le (by simp), hM]
      have : ((-100 : ℚ) :: List.replicate 31 1).getD 0 0 / (1 / 127) = ((-12700 : ℤ) : ℚ) := by
        norm_num
      rw [this, rustRound_intCast]
      norm_num [satI8]
    have habs : absMax (blockOf ((-100 : ℚ) :: List.replicate 31 1) 0) = 100 := by
      rw [blockOf_small _ _ (by omega), List.take_of_length_le (by simp)]
      norm_num [absMax, List.replicate_succ]
    rw [hval, habs, List.getD_cons_zero]
    have h1 : ((-128 : ℚ) / 127) - (-100) = 12572 / 127 := by norm_num
    rw [h1, abs_of_pos (by norm_num : (0 : ℚ) < 12572 / 127)]
    norm_num

/-- C1 as amended: the round-trip bound `absmax/127` holds for every input
whose length is a multiple of 32, provided every element of each
32-element block is dominated in absolute value by the block's running
maximum (the source computes the scale from the signed maximum of the
block, so a negative element larger in magnitude than the maximum breaks
the bound, as the counterexample shows). -/
theorem q8_0_roundtrip_within_absmax_div_127 (x : List ℚ)
    (h32 : x.length % 32 = 0)
    (hdom : ∀ i < x.length, ∀ b ∈ blockOf x i, |b| ≤ chunkMax (blockOf x i)) :
    ∀ i < x.length,
      |(dequantizeBlocksQ8_0 (quantizeQ8_0 x)).getD i 0 - x.getD i 0| ≤
        absMax (blockOf x i) / 127 :=
  q8_0_roundtrip_aux x.length x rfl h32 hdom

set_option maxRecDepth 10000 in
/-- C1 witness: the round-trip bound instantiated at the S1 scenario block
`[2, 3, 4, 1 × 28, 7]`, whose elements are all dominated by the running
maximum 7, evaluated at element 0. -/
theorem q8_0_roundtrip_witness :
    |(dequantizeBlocksQ8_0 (quantizeQ8_0 ((2 : ℚ) :: 3 :: 4 :: List.replicate 28 1 ++ [7]))).getD 0 0 -
        ((2 : ℚ) :: 3 :: 4 :: List.replicate 28 1 ++ [7]).getD 0 0| ≤
      absMax (blockOf ((2 : ℚ) :: 3 :: 4 :: List.replicate 28 1 ++ [7]) 0) / 127 :=
  q8_0_roundtrip_within_absmax_div_127 _ (by simp)
    (by
      intro i hi b hb
      have hlen : ((2 : ℚ) :: 3 :: 4 :: List.replicate 28 1 ++ [7]).length = 32 := by simp
      rw [hlen] at hi
      rw [blockOf_small _ _ hi, List.take_of_length_le (by simp)] at hb ⊢
      have hM : chunkMax ((2 : ℚ) :: 3 :: 4 :: List.replicate 28 1 ++ [7]) = 7 := by
        norm_num [chunkMax, f32MIN, List.replicate_succ]
      rw [hM]
      simp only [List.mem_append, List.mem_cons, List.mem_replicate, List.mem_singleton,
        List.not_mem_nil, or_false] at hb
      rcases hb with (rfl | rfl | rfl | ⟨-, rfl⟩) | rfl <;> norm_num)
    0 (by simp)

theorem exceptBindOk {β γ : Type} (f : Unit → Except γ β) :
    ((Except.ok () : Except γ Unit) >>= f) = f () := rfl

theorem exceptBindErr {β γ : Type} (e : γ) (f : Unit → Except γ β) :
    ((Except.error e : Except γ Unit) >>= f) = Except.error e := rfl

/-- C5: `tensor_matmul_2d` returns `Ok` exactly when W has rank 2, X has
rank 1 or 2, `W.cols = X.rows` and W is contiguous — i.e. it reports a
recoverable error exactly on the complementary conditions (the success
path is a total computation, so no panic occurs; the inputs are taken by
shared reference and unchanged) — and in the shape-mismatch case the
error carries both offending shapes, as the formatted message does. -/
theorem tensor_matmul_2d_ok_iff (w x : CpuTensor) :
    ((∃ out, tensorMatmul2d w x = .ok out) ↔
      (w.shape.length = 2 ∧ (x.shape.length = 1 ∨ x.shape.length = 2) ∧
        w.shape.getD 1 0 = x.shape.getD 0 0 ∧ w.isContiguous = true)) ∧
    (w.shape.length = 2 → (x.shape.length = 1 ∨ x.shape.length = 2) →
      w.shape.getD 1 0 ≠ x.shape.getD 0 0 →
      tensorMatmul2d w x = .error (.matmulShapeMismatch w.shape x.shape)) := by
  by_cases h1 : w.shape.length = 2
  case neg =>
    have hA : requireTensorDims w [2] = .error (.wrongDims [2] w.shape.length) := by
      unfold requireTensorDims
      rw [if_neg (by simpa using h1)]
    constructor
    · simp only [h1, false_and, iff_false]
      rintro ⟨out, hout⟩
      unfold tensorMatmul2d at hout
      rw [hA, exceptBindErr] at hout
      exact Except.noConfusion hout
    · intro hw _ _
      exact absurd hw h1
  case pos =>
  have hA : requireTensorDims w [2] = .ok () := by
    unfold requireTensorDims
    rw [if_pos (by simp [h1])]
  by_cases h2 : x.shape.length = 1 ∨ x.shape.length = 2
  case neg =>
    have hB : requireTensorDims x [1, 2] = .error (.wrongDims [1, 2] x.shape.length) := by
      unfold requireTensorDims
      rw [if_neg (by simpa using h2)]
    constructor
    · simp only [h2, false_and, and_false, iff_false]
      rintro ⟨out, hout⟩
      unfold tensorMatmul2d at hout
      rw [hA, exceptBindOk, hB, exceptBindErr] at hout
      exact Except.noConfusion hout
    · intro _ hx _
      exact absurd hx h2
  case pos =>
  have hB : requireTensorDims x [1, 2] = .ok () := by
    unfold requireTensorDims
    rw [if_pos (by simpa using h2)]
  by_cases h3 : w.shape.getD 1 0 = x.shape.getD 0 0
  case neg =>
    have hC : requireTensorMatmul2dShapes w x =
        .error (.matmulShapeMismatch w.shape x.shape) := by
      unfold requireTensorMatmul2dShapes
      rw [if_neg h3]
    constructor
    · simp only [h3, false_and, and_false, iff_false]
      rintro ⟨out, hout⟩
      unfold tensorMatmul2d at hout
      rw [hA, exceptBindOk, hB, exceptBindOk, hC, exceptBindErr] at hout
      exact Except.noConfusion hout
    · intro _ _ _
      unfold tensorMatmul2d
      rw [hA, exceptBindOk, hB, exceptBindOk, hC, exceptBindErr]
  case pos =>
  have hC : requireTensorMatmul2dShapes w x = .ok () := by
    unfold requireTensorMatmul2dShapes
    rw [if_pos h3]
  refine ⟨?_, fun _ _ hne => absurd h3 hne⟩
  by_cases h4 : w.isContiguous = true
  case neg =>
    have hD : requireTensorContiguous w = .error .notContiguous := by
      unfold requireTensorContiguous
      rw [if_neg (by simpa using h4)]
    refine iff_of_false ?_ (fun hcon => h4 hcon.2.2.2)
    rintro ⟨out, hout⟩
    unfold tensorMatmul2d at hout
    rw [hA, exceptBindOk, hB, exceptBindOk, hC, exceptBindOk, hD, exceptBindErr] at hout
    exact Except.noConfusion hout
  case pos =>
  have hD : requireTensorContiguous w = .ok () := by
    unfold requireTensorContiguous
    rw [if_pos (by simpa using h4)]
  simp only [h1, h2, h3, h4, and_true, true_and, iff_true]
  unfold tensorMatmul2d
  rw [hA, exceptBindOk, hB, exceptBindOk, hC, exceptBindOk, hD, exceptBindOk]
  split_ifs <;> exact ⟨_, rfl⟩

/-! Helper lemmas for the in-place softmax (C6). -/

theorem mul_s_inj (s : Nat) (hs : 1 ≤ s) (i j : Nat) (h : i * s = j * s) : i = j :=
  Nat.eq_of_mul_eq_mul_right (by omega) h

theorem getD_set_ne_q (l : List ℚ) (i j : Nat) (v : ℚ) (h : j ≠ i) :
    (l.set i v).getD j 0 = l.getD j 0 := by
  simp [List.getD_eq_getElem?_getD, List.getElem?_set_ne (Ne.symm h)]

theorem getD_set_self_q (l : List ℚ) (i : Nat) (v : ℚ) (h : i < l.length) :
    (l.set i v).getD i 0 = v := by
  simp [List.getD_eq_getElem?_getD, List.getElem?_set_self, h]

theorem softmaxExpPass_spec (e : ℚ → ℚ) (m : ℚ) (s : Nat) (hs : 1 ≤ s)
    (buf : List ℚ) :
    ∀ t : Nat,
      (softmaxExpPass e m s t buf).1.length = buf.length ∧
      (∀ p, (∀ i < t, p ≠ i * s) →
        (softmaxExpPass e m s t buf).1.getD p 0 = buf.getD p 0) ∧
      (∀ i < t, i * s < buf.length →
        (softmaxExpPass e m s t buf).1.getD (i * s) 0 = e (elemAt buf s i - m)) ∧
      (softmaxExpPass e m s t buf).2 = sumRange t (fun i => e (elemAt buf s i - m)) := by
  intro t
  induction t with
  | zero =>
    refine ⟨rfl, fun p _ => rfl, fun i hi => absurd hi (by omega), rfl⟩
  | succ t ih =>
    obtain ⟨ih1, ih2, ih3, ih4⟩ := ih
    have hstep : softmaxExpPass e m s (t + 1) buf =
        ((softmaxExpPass e m s t buf).1.set (t * s)
            (e (elemAt (softmaxExpPass e m s t buf).1 s t - m)),
          (softmaxExpPass e m s t buf).2 +
            e (elemAt (softmaxExpPass e m s t buf).1 s t - m)) := rfl
    have hread : elemAt (softmaxExpPass e m s t buf).1 s t = elemAt buf s t := by
      unfold elemAt
      apply ih2
      intro i hi hne
      exact absurd (mul_s_inj s hs t i hne) (by omega)
    refine ⟨?_, ?_, ?_, ?_⟩
    · rw [hstep]
      simpa using ih1
    · intro p hp
      rw [hstep]
      have hpt : p ≠ t * s := hp t (by omega)
      simp only
      rw [getD_set_ne_q _ _ _ _ hpt]
      exact ih2 p (fun i hi => hp i (by omega))
    · intro i hi hb
      rw [hstep]
      simp only
      by_cases hit : i = t
      · subst hit
        rw [getD_set_self_q _ _ _ (by rw [ih1]; exact hb), hread]
      · have hne : i * s ≠ t * s := fun h => hit (mul_s_inj s hs i t h)
        rw [getD_set_ne_q _ _ _ _ hne]
        exact ih3 i (by omega) hb
    · rw [hstep]
      simp only
      rw [ih4, hread, sumRange_succ]

theorem softmaxDivPass_spec (total : ℚ) (s : Nat) (hs : 1 ≤ s) (buf : List ℚ) :
    ∀ t : Nat,
      (softmaxDivPass total s t buf).length = buf.length ∧
      (∀ p, (∀ i < t, p ≠ i * s) →
        (softmaxDivPass total s t buf).getD p 0 = buf.getD p 0) ∧
      (∀ i < t, i * s < buf.length →
        (softmaxDivPass total s t buf).getD (i * s) 0 =
          buf.getD (i * s) 0 / total) := by
  intro t
  induction t with
  | zero =>
    refine ⟨rfl, fun p _ => rfl, fun i hi => absurd hi (by omega)⟩
  | succ t ih =>
    obtain ⟨ih1, ih2, ih3⟩ := ih
    have hstep : softmaxDivPass total s (t + 1) buf =
        (softmaxDivPass total s t buf).set (t * s)
          (elemAt (softmaxDivPass total s t buf) s t / total) := rfl
    have hread : elemAt (softmaxDivPass total s t buf) s t = elemAt buf s t := by
      unfold elemAt
      apply ih2
      intro i hi hne
      exact absurd (mul_s_inj s hs t i hne) (by omega)
    refine ⟨?_, ?_, ?_⟩
    · rw [hstep]
      simpa using ih1
    · intro p hp
      rw [hstep]
      have hpt : p ≠ t * s := hp t (by omega)
      rw [getD_set_ne_q _ _ _ _ hpt]
      exact ih2 p (fun i hi => hp i (by omega))
    · intro i hi hb
      rw [hstep]
      by_cases hit : i = t
      · subst hit
        rw [getD_set_self_q _ _ _ (by rw [ih1]; exact hb), hread]
        rfl
      · have hne : i * s ≠ t * s := fun h => hit (mul_s_inj s hs i t h)
        rw [getD_set_ne_q _ _ _ _ hne]
        exact ih3 i (by omega) hb

theorem nanMaxFold_from_some (l : List ℚ) :
    ∀ a0 : ℚ,
      l.foldl (fun acc b => some (match acc with | none => b | some a => max a b))
          (some a0) = some (l.foldl max a0) := by
  induction l with
  | nil => intro a0; rfl
  | cons b rest ih =>
    intro a0
    simp only [List.foldl_cons]
    exact ih (max a0 b)

theorem nanMaxFold_cons (a : ℚ) (l : List ℚ) :
    nanMaxFold (a :: l) = some (l.foldl max a) := by
  unfold nanMaxFold
  simp only [List.foldl_cons]
  exact nanMaxFold_from_some l a

theorem nanMaxFold_spec (l : List ℚ) (hl : l ≠ []) :
    (∀ b ∈ l, b ≤ (nanMaxFold l).getD 0) ∧ (nanMaxFold l).getD 0 ∈ l := by
  match l with
  | a :: rest =>
    rw [nanMaxFold_cons]
    simp only [Option.getD_some]
    constructor
    · intro b hb
      rcases List.mem_cons.mp hb with rfl | hmem
      · exact foldl_max_ge_init rest b
      · exact foldl_max_ge_mem rest a b hmem
    · rcases foldl_max_mem_or_init rest a with h | h
      · exact List.mem_cons_of_mem _ h
      · rw [h]
        exact List.mem_cons_self _ _

theorem iterAxis_rank1 (t : CpuTensor) (n s : Nat)
    (hshape : t.shape = [n]) (hstr : t.strides = [s]) :
    t.iterAxis [0] 0 = (List.range n).map (fun i => t.buf.getD (i * s) 0) := by
  unfold CpuTensor.iterAxis flatOffset
  rw [hshape, hstr]
  simp

/-- C6: for a rank-1 tensor with stride `s ≥ 1` whose logical positions
are all in bounds and a `limit` not exceeding the extent,
`tensor_softmax_inplace` succeeds, leaves every logical element at index
`≥ limit` (and the descriptor) unchanged, and replaces each element at
index `i < limit` by `exp(x[i] − M) / Σ`, where `M` is the running
maximum the source computes over the first `limit` elements — proved
below to be the true maximum of those elements — and `Σ` the sum of the
exponentials.  `e` abstracts `f32::exp`. -/
theorem tensor_softmax_inplace_spec (e : ℚ → ℚ) (t : CpuTensor)
    (limit n s : Nat) (hshape : t.shape = [n]) (hstr : t.strides = [s])
    (hs : 1 ≤ s) (hlim : limit ≤ n) (hbound : ∀ i < n, i * s < t.buf.length) :
    ∃ t2, tensorSoftmaxInplace e t limit = .ok t2 ∧
      t2.shape = t.shape ∧ t2.strides = t.strides ∧
      t2.buf.length = t.buf.length ∧
      (∀ i, limit ≤ i → i < n → elemAt t2.buf s i = elemAt t.buf s i) ∧
      (∀ i < limit, elemAt t2.buf s i =
        e (elemAt t.buf s i -
            (nanMaxFold ((t.iterAxis [0] 0).take limit)).getD 0) /
          sumRange limit (fun j => e (elemAt t.buf s j -
            (nanMaxFold ((t.iterAxis [0] 0).take limit)).getD 0))) ∧
      (1 ≤ limit →
        (∀ j < limit, elemAt t.buf s j ≤
          (nanMaxFold ((t.iterAxis [0] 0).take limit)).getD 0) ∧
        ∃ j < limit, elemAt t.buf s j =
          (nanMaxFold ((t.iterAxis [0] 0).take limit)).getD 0) := by
  have hdims : requireTensorDims t [1] = .ok () := by
    unfold requireTensorDims
    rw [if_pos (by rw [hshape]; simp)]
  have hsd : t.strides.getD 0 0 = s := by rw [hstr]; rfl
  have hrun : tensorSoftmaxInplace e t limit = .ok
      { t with buf := (softmaxDivPass (softmaxExpPass e ((nanMaxFold ((t.iterAxis [0] 0).take limit)).getD 0) s limit t.buf).2 s limit (softmaxExpPass e ((nanMaxFold ((t.iterAxis [0] 0).take limit)).getD 0) s limit t.buf).1) } := by
    unfold tensorSoftmaxInplace
    rw [hdims, exceptBindOk, hsd]
    rfl
  set M := (nanMaxFold ((t.iterAxis [0] 0).take limit)).getD 0 with hMdef
  obtain ⟨e1, e2, e3, e4⟩ := softmaxExpPass_spec e M s hs t.buf limit
  obtain ⟨d1, d2, d3⟩ := softmaxDivPass_spec
    (softmaxExpPass e M s limit t.buf).2 s hs
    (softmaxExpPass e M s limit t.buf).1 limit
  refine ⟨_, hrun, rfl, rfl, by rw [d1, e1], ?_, ?_, ?_⟩
  · intro i hge hlt
    unfold elemAt
    dsimp only
    have hfr : ∀ j < limit, i * s ≠ j * s := by
      intro j hj hne
      exact absurd (mul_s_inj s hs i j hne) (by omega)
    rw [d2 _ hfr, e2 _ hfr]
  · intro i hi
    unfold elemAt
    dsimp only
    have hb : i * s < t.buf.length := hbound i (by omega)
    rw [d3 i hi (by rw [e1]; exact hb), e3 i hi hb, e4]
    rfl
  · intro hl1
    have hlist : (t.iterAxis [0] 0).take limit =
        (List.range limit).map (fun i => elemAt t.buf s i) := by
      rw [iterAxis_rank1 t n s hshape hstr, ← List.map_take, List.take_range,
        Nat.min_eq_left hlim]
      rfl
    have hne : (t.iterAxis [0] 0).take limit ≠ [] := by
      rw [hlist]
      simp only [ne_eq, List.map_eq_nil_iff, List.range_eq_nil]
      omega
    obtain ⟨hub, hmem⟩ := nanMaxFold_spec _ hne
    rw [hlist] at hub hmem
    constructor
    · intro j hj
      rw [hMdef, hlist]
      exact hub _ (List.mem_map_of_mem _ (List.mem_range.mpr hj))
    · obtain ⟨j, hjmem, hjeq⟩ := List.mem_map.mp hmem
      refine ⟨j, List.mem_range.mp hjmem, ?_⟩
      rw [hMdef, hlist]
      exact hjeq

/-- C6 witness: the softmax theorem instantiated at the tensor
`[1, 2, 3]` with stride 1 and limit 2, with `exp` instantiated by the
identity function. -/
theorem tensor_softmax_inplace_witness :
    ∃ t2, tensorSoftmaxInplace (fun v => v) softmaxSampleTensor 2 = .ok t2 ∧
      t2.shape = softmaxSampleTensor.shape ∧
      t2.strides = softmaxSampleTensor.strides ∧
      t2.buf.length = softmaxSampleTensor.buf.length ∧
      (∀ i, 2 ≤ i → i < 3 →
        elemAt t2.buf 1 i = elemAt softmaxSampleTensor.buf 1 i) ∧
      (∀ i < 2, elemAt t2.buf 1 i =
        (fun v => v) (elemAt softmaxSampleTensor.buf 1 i - softmaxSampleMax) /
          sumRange 2 (fun j =>
            (fun v => v) (elemAt softmaxSampleTensor.buf 1 j - softmaxSampleMax))) ∧
      (1 ≤ 2 →
        (∀ j < 2, elemAt softmaxSampleTensor.buf 1 j ≤ softmaxSampleMax) ∧
        ∃ j < 2, elemAt softmaxSampleTensor.buf 1 j = softmaxSampleMax) :=
  tensor_softmax_inplace_spec (fun v => v) softmaxSampleTensor 2 3 1 rfl rfl
    (by norm_num) (by norm_num)
    (by
      intro i hi
      show i * 1 < 3
      omega)

/-! Helper lemmas for RoPE (C10). -/

theorem ropeRotatePair_spec (vec : List ℚ) (i : Nat) (fcr fci : ℚ)
    (v2 : List ℚ) (h : ropeRotatePair vec i fcr fci = some v2) :
    i + 1 < vec.length ∧ v2.length = vec.length ∧
    ∀ j, j ≠ i → j ≠ i + 1 → v2.getD j 0 = vec.getD j 0 := by
  unfold ropeRotatePair at h
  by_cases hb : i + 1 < vec.length
  · rw [if_pos hb] at h
    obtain rfl : ((vec.set i (vec.getD i 0 * fcr - vec.getD (i + 1) 0 * fci)).set
        (i + 1) (vec.getD i 0 * fci + vec.getD (i + 1) 0 * fcr)) = v2 :=
      Option.some_injective _ h
    refine ⟨hb, by simp, ?_⟩
    intro j hj1 hj2
    rw [getD_set_ne_q _ _ _ _ hj2, getD_set_ne_q _ _ _ _ hj1]
  · rw [if_neg hb] at h
    exact Option.noConfusion h

/-- Frame property of the RoPE loop: when K occupies at most `kvDim`
elements and the loop succeeds, the Q buffer keeps its length and every
Q cell at a flat index `≥ kvDim` keeps its value. -/
theorem ropeLoop_frame (ac as : Nat → ℚ) (kvDim : Nat) :
    ∀ (cnt i : Nat) (q k q2 k2 : List ℚ), kvDim - i ≤ cnt →
      k.length ≤ kvDim →
      ropeLoop ac as kvDim i q k = some (q2, k2) →
      q2.length = q.length ∧ ∀ j, kvDim ≤ j → q2.getD j 0 = q.getD j 0 := by
  intro cnt
  induction cnt with
  | zero =>
    intro i q k q2 k2 hcnt hk h
    have hge : ¬ i < kvDim := by omega
    rw [ropeLoop, dif_neg hge] at h
    obtain ⟨rfl, rfl⟩ : q = q2 ∧ k = k2 := by
      have := Option.some_injective _ h
      exact ⟨congrArg Prod.fst this, congrArg Prod.snd this⟩
    exact ⟨rfl, fun j _ => rfl⟩
  | succ cnt ih =>
    intro i q k q2 k2 hcnt hk h
    by_cases hlt : i < kvDim
    · rw [ropeLoop, dif_pos hlt] at h
      rcases hq : ropeRotatePair q i (ac i) (as i) with _ | q2i
      · rw [hq] at h
        exact Option.noConfusion h
      rcases hkp : ropeRotatePair k i (ac i) (as i) with _ | k2i
      · rw [hq, hkp] at h
        exact Option.noConfusion h
      rw [hq, hkp] at h
      obtain ⟨hqb, hqlen, hqfr⟩ := ropeRotatePair_spec _ _ _ _ _ hq
      obtain ⟨hkb, hklen, -⟩ := ropeRotatePair_spec _ _ _ _ _ hkp
      have hik : i + 1 < kvDim := by omega
      obtain ⟨ihlen, ihfr⟩ := ih (i + 2) q2i k2i q2 k2 (by omega)
        (by rw [hklen]; exact hk) h
      refine ⟨by rw [ihlen, hqlen], ?_⟩
      intro j hj
      rw [ihfr j hj, hqfr j (by omega) (by omega)]
    · rw [ropeLoop, dif_neg hlt] at h
      obtain ⟨rfl, rfl⟩ : q = q2 ∧ k = k2 := by
        have := Option.some_injective _ h
        exact ⟨congrArg Prod.fst this, congrArg Prod.snd this⟩
      exact ⟨rfl, fun j _ => rfl⟩

/-- C10: `tensor_rope_inplace` rotates only element pairs of `q` at flat
indices below `kv_dim` (the total element count of `k`): whenever the
call succeeds on a well-formed `k` (its buffer holds exactly the product
of its extents), every element of `q` at a flat index `≥ kv_dim` is left
unchanged — in particular when `q` has more elements than `k`. -/
theorem tensor_rope_inplace_frame (ac as : Nat → ℚ) (q k : CpuTensor)
    (hk : k.buf.length = k.shape.foldl (· * ·) 1) (q2 k2 : CpuTensor)
    (h : tensorRopeInplace ac as q k = some (q2, k2)) :
    q2.buf.length = q.buf.length ∧
    ∀ j, k.shape.foldl (· * ·) 1 ≤ j → q2.buf.getD j 0 = q.buf.getD j 0 := by
  unfold tensorRopeInplace at h
  by_cases hc : q.isContiguous = true ∧ k.isContiguous = true ∧
      q.shape.length = 2 ∧ k.shape.length = 2
  · rw [if_pos (by simpa using hc)] at h
    simp only [] at h
    rcases hl : ropeLoop ac as (k.shape.foldl (· * ·) 1) 0 q.buf k.buf with _ | ⟨qb, kb⟩
    · rw [hl] at h
      exact Option.noConfusion h
    · rw [hl] at h
      obtain ⟨hq2, -⟩ : q2 = { q with buf := qb } ∧ k2 = { k with buf := kb } := by
        have h2 := Option.some_injective _ h.symm
        exact ⟨congrArg Prod.fst h2, congrArg Prod.snd h2⟩
      subst hq2
      exact ropeLoop_frame ac as _ (k.shape.foldl (· * ·) 1) 0 q.buf k.buf qb kb
        (by omega) (by omega) (by rw [hl])
  · rw [if_neg (by simpa using hc)] at h
    exact Option.noConfusion h

/-- C10 witness: the frame theorem instantiated at a two-head `q` over a
one-KV-head `k` (`kv_dim = 2`), with `cos` and `sin` both instantiated to
the constant 1; the rope call succeeds, rotating `q[0], q[1]` and leaving
`q[2], q[3]` untouched. -/
theorem tensor_rope_inplace_witness :
    (CpuTensor.mk [1, 1, 5, 7] [2, 2] [2, 1]).buf.length =
      (CpuTensor.mk [1, 0, 5, 7] [2, 2] [2, 1]).buf.length ∧
    ∀ j, (CpuTensor.mk [3, 4] [1, 2] [2, 1]).shape.foldl (· * ·) 1 ≤ j →
      (CpuTensor.mk [1, 1, 5, 7] [2, 2] [2, 1]).buf.getD j 0 =
        (CpuTensor.mk [1, 0, 5, 7] [2, 2] [2, 1]).buf.getD j 0 :=
  tensor_rope_inplace_frame (fun _ => 1) (fun _ => 1)
    ⟨[1, 0, 5, 7], [2, 2], [2, 1]⟩ ⟨[3, 4], [1, 2], [2, 1]⟩ (by decide)
    ⟨[1, 1, 5, 7], [2, 2], [2, 1]⟩ ⟨[-1, 7], [1, 2], [2, 1]⟩
    (by norm_num [tensorRopeInplace, CpuTensor.isContiguous, contigStrides,
      ropeLoop, ropeRotatePair, List.getD])

/-! Helper lemmas for the batched matmul loop nest (C4). -/

theorem bmmKiLoop_pw (c : Nat → ℚ) (cell k : Nat) (term : Nat → ℚ) :
    ∀ j, bmmKiLoop c cell k term j =
      if cell ≤ j ∧ j < cell + 1 then c j + sumRange k term else c j := by
  have hfold : bmmKiLoop c cell k term = upd c cell (c cell + sumRange k term) := by
    unfold bmmKiLoop
    induction k with
    | zero =>
      funext j
      unfold forRange upd sumRange forRange
      by_cases h : j = cell <;> simp [h]
    | succ k ih =>
      rw [forRange_succ, ih]
      funext j
      unfold upd
      by_cases h : j = cell <;> simp [h, sumRange_succ]
      ring
  intro j
  rw [hfold]
  unfold upd
  by_cases h : j = cell
  · rw [if_pos h, if_pos (by omega)]
    rw [h]
  · rw [if_neg h, if_neg (by omega)]

/-- The generic disjoint-strip fold: if iteration `i` of a loop adds
`g i (offset within its strip)` exactly on the cells of the strip
`[base + i*w, base + i*w + w)`, then after `t` iterations every cell of
`[base, base + t*w)` has received the contribution of the strip it lies
in, and every other cell is untouched. -/
theorem stripFoldPw (w : Nat) (hw : 0 < w) (g : Nat → Nat → ℚ) (base : Nat)
    (body : (Nat → ℚ) → Nat → (Nat → ℚ))
    (hbody : ∀ c i j, body c i j =
      if base + i * w ≤ j ∧ j < base + i * w + w then
        c j + g i (j - (base + i * w)) else c j) :
    ∀ (t : Nat) (c : Nat → ℚ) (j : Nat),
      forRange t body c j =
        if base ≤ j ∧ j < base + t * w then
          c j + g ((j - base) / w) ((j - base) % w) else c j := by
  intro t
  induction t with
  | zero =>
    intro c j
    rw [forRange_zero, if_neg (by omega)]
  | succ t ih =>
    intro c j
    rw [forRange_succ, hbody]
    by_cases hnew : base + t * w ≤ j ∧ j < base + t * w + w
    · rw [if_pos hnew, ih, if_neg (by omega)]
      rw [if_pos (by have hx : (t + 1) * w = t * w + w := (by ring); omega)]
      have hq : j - base = (j - (base + t * w)) + t * w := by omega
      have hqlt : j - (base + t * w) < w := by omega
      rw [hq, Nat.add_mul_div_right _ _ hw, Nat.add_mul_mod_self_right,
        Nat.div_eq_of_lt hqlt, Nat.mod_eq_of_lt hqlt, Nat.zero_add]
    · rw [if_neg hnew, ih]
      by_cases hold : base ≤ j ∧ j < base + t * w
      · rw [if_pos hold, if_pos (by have hx : (t + 1) * w = t * w + w := (by ring); omega)]
      · rw [if_neg hold, if_neg (by
          have hx : (t + 1) * w = t * w + w := by ring
          intro hcon
          exact hold ⟨hcon.1, by omega⟩)]

theorem enc3_lt (bi mi ni aB m n : Nat) (hb : bi < aB) (hm : mi < m)
    (hn : ni < n) : bi * (m * n) + mi * n + ni < aB * (m * n) := by
  have h1 : mi * n + ni < m * n := by
    calc mi * n + ni < mi * n + n := by omega
    _ = (mi + 1) * n := by ring
    _ ≤ m * n := Nat.mul_le_mul_right n (by omega)
  calc bi * (m * n) + mi * n + ni < bi * (m * n) + m * n := by omega
  _ = (bi + 1) * (m * n) := by ring
  _ ≤ aB * (m * n) := Nat.mul_le_mul_right (m * n) (by omega)

theorem enc3_div (bi mi ni m n : Nat) (hm : mi < m) (hn : ni < n) :
    (bi * (m * n) + mi * n + ni) / (m * n) = bi ∧
    (bi * (m * n) + mi * n + ni) % (m * n) = mi * n + ni := by
  have h1 : mi * n + ni < m * n := by
    calc mi * n + ni < mi * n + n := by omega
    _ = (mi + 1) * n := by ring
    _ ≤ m * n := Nat.mul_le_mul_right n (by omega)
  have hmn : 0 < m * n := by
    rcases Nat.eq_zero_or_pos (m * n) with h | h
    · omega
    · exact h
  have he : bi * (m * n) + mi * n + ni = (m * n) * bi + (mi * n + ni) := by ring
  constructor
  · rw [he, Nat.mul_add_div hmn, Nat.div_eq_of_lt h1, Nat.add_zero]
  · rw [he, Nat.mul_add_mod, Nat.mod_eq_of_lt h1]

theorem enc2_div (mi ni n : Nat) (hn : ni < n) :
    (mi * n + ni) / n = mi ∧ (mi * n + ni) % n = ni := by
  have he : mi * n + ni = n * mi + ni := by ring
  constructor
  · rw [he, Nat.mul_add_div (by omega), Nat.div_eq_of_lt hn, Nat.add_zero]
  · rw [he, Nat.mul_add_mod, Nat.mod_eq_of_lt hn]

/-- Closed form of `batch_matmul_naive_f32`: the assert passes whenever
`b_batch ≤ a_batch`, and each output cell `(bi, mi, ni)` receives its
initial value plus the k-fold sum of
`bufa[bi·sa0 + mi·sa1 + ki·sa2] · bufb[(bi mod b_batch)·sb0 + ki·sb1 + ni·sb2]`
— in particular B is read at effective batch index `bi mod b_batch`. -/
theorem batchMatmulNaiveF32_closed (bufa bufb bufc : Nat → ℚ)
    (aB m k n bB sa0 sa1 sa2 sb0 sb1 sb2 : Nat)
    (hba : bB ≤ aB) (hm : 0 < m) (hn : 0 < n) :
    ∃ c, batchMatmulNaiveF32 bufa bufb bufc ⟨[aB, m, k], [sa0, sa1, sa2]⟩
        ⟨[bB, k, n], [sb0, sb1, sb2]⟩ = some c ∧
      ∀ bi < aB, ∀ mi < m, ∀ ni < n,
        c (bi * (m * n) + mi * n + ni) =
          bufc (bi * (m * n) + mi * n + ni) +
          sumRange k (fun ki => bufa (bi * sa0 + mi * sa1 + ki * sa2) *
            bufb (bi % bB * sb0 + ki * sb1 + ni * sb2)) := by
  refine ⟨forRange aB
      (fun c bi2 =>
        forRange m
          (fun c2 mi2 =>
            forRange n
              (fun c3 ni2 =>
                bmmKiLoop c3 (bi2 * (m * n) + mi2 * n + ni2) k
                  (fun ki => bufa (bi2 * sa0 + mi2 * sa1 + ki * sa2) *
                    bufb (bi2 % bB * sb0 + ki * sb1 + ni2 * sb2)))
              c2)
          c)
      bufc, ?_, ?_⟩
  · show (if aB < bB then none else some _) = some _
    exact if_neg (Nat.not_lt.mpr hba)
  · intro bi hbi mi hmi ni hni
    have hInner : ∀ (bi2 mi2 t : Nat) (c : Nat → ℚ) (j : Nat),
        forRange t
          (fun c3 ni2 =>
            bmmKiLoop c3 (bi2 * (m * n) + mi2 * n + ni2) k
              (fun ki => bufa (bi2 * sa0 + mi2 * sa1 + ki * sa2) *
                bufb (bi2 % bB * sb0 + ki * sb1 + ni2 * sb2))) c j =
        if bi2 * (m * n) + mi2 * n ≤ j ∧ j < bi2 * (m * n) + mi2 * n + t * 1 then
          c j + sumRange k (fun ki => bufa (bi2 * sa0 + mi2 * sa1 + ki * sa2) *
            bufb (bi2 % bB * sb0 + ki * sb1 +
              (j - (bi2 * (m * n) + mi2 * n)) / 1 * sb2))
        else c j := by
      intro bi2 mi2 t c j
      refine stripFoldPw 1 (by omega)
        (fun i q => sumRange k (fun ki => bufa (bi2 * sa0 + mi2 * sa1 + ki * sa2) *
          bufb (bi2 % bB * sb0 + ki * sb1 + i * sb2)))
        (bi2 * (m * n) + mi2 * n) _ ?_ t c j
      intro c2 i j2
      rw [bmmKiLoop_pw]
      have h1 : bi2 * (m * n) + mi2 * n + i * 1 = bi2 * (m * n) + mi2 * n + i := by
        ring
      rw [h1]
    have hMid : ∀ (bi2 t : Nat) (c : Nat → ℚ) (j : Nat),
        forRange t
          (fun c2 mi2 =>
            forRange n
              (fun c3 ni2 =>
                bmmKiLoop c3 (bi2 * (m * n) + mi2 * n + ni2) k
                  (fun ki => bufa (bi2 * sa0 + mi2 * sa1 + ki * sa2) *
                    bufb (bi2 % bB * sb0 + ki * sb1 + ni2 * sb2)))
              c2) c j =
        if bi2 * (m * n) ≤ j ∧ j < bi2 * (m * n) + t * n then
          c j + sumRange k (fun ki =>
            bufa (bi2 * sa0 + (j - bi2 * (m * n)) / n * sa1 + ki * sa2) *
            bufb (bi2 % bB * sb0 + ki * sb1 +
              (j - bi2 * (m * n)) % n / 1 * sb2))
        else c j := by
      intro bi2 t c j
      refine stripFoldPw n hn
        (fun i q => sumRange k (fun ki =>
          bufa (bi2 * sa0 + i * sa1 + ki * sa2) *
          bufb (bi2 % bB * sb0 + ki * sb1 + q / 1 * sb2)))
        (bi2 * (m * n)) _ ?_ t c j
      intro c2 i j2
      rw [hInner bi2 i n c2 j2]
      simp only [Nat.mul_one]
    have hOuter : ∀ (t : Nat) (c : Nat → ℚ) (j : Nat),
        forRange t
          (fun c2 bi2 =>
            forRange m
              (fun c3 mi2 =>
                forRange n
                  (fun c4 ni2 =>
                    bmmKiLoop c4 (bi2 * (m * n) + mi2 * n + ni2) k
                      (fun ki => bufa (bi2 * sa0 + mi2 * sa1 + ki * sa2) *
                        bufb (bi2 % bB * sb0 + ki * sb1 + ni2 * sb2)))
                  c3)
              c2) c j =
        if 0 ≤ j ∧ j < 0 + t * (m * n) then
          c j + sumRange k (fun ki =>
            bufa ((j - 0) / (m * n) * sa0 +
              (j - 0) % (m * n) / n * sa1 + ki * sa2) *
            bufb ((j - 0) / (m * n) % bB * sb0 + ki * sb1 +
              (j - 0) % (m * n) % n / 1 * sb2))
        else c j := by
      intro t c j
      refine stripFoldPw (m * n) (Nat.mul_pos hm hn)
        (fun i q => sumRange k (fun ki =>
          bufa (i * sa0 + q / n * sa1 + ki * sa2) *
          bufb (i % bB * sb0 + ki * sb1 + q % n / 1 * sb2)))
        0 _ ?_ t c j
      intro c2 i j2
      rw [hMid i m c2 j2]
      simp only [Nat.zero_add]
    rw [hOuter aB bufc (bi * (m * n) + mi * n + ni)]
    rw [if_pos ⟨Nat.zero_le _, by
      have := enc3_lt bi mi ni aB m n hbi hmi hni
      omega⟩]
    obtain ⟨hd3, hm3⟩ := enc3_div bi mi ni m n hmi hni
    simp only [Nat.sub_zero]
    rw [hd3, hm3]
    obtain ⟨hd2, hm2⟩ := enc2_div mi ni n hni
    rw [hd2, hm2, Nat.div_one]

theorem sumRange_congr (k : Nat) (f g : Nat → ℚ) (h : ∀ i, f i = g i) :
    sumRange k f = sumRange k g := by
  rw [funext h]

/-- C4: when `a_batch = b_batch · kk` (with positive extents), the
batched matmul primitive succeeds (its `a_batch ≥ b_batch` assertion
holds), computes every output cell as the dot of the A row with the B
column at effective batch index `bi mod b_batch`, and the output is the
concatenation along the batch axis of the `kk` equal-batch results of
the corresponding A chunks against B. -/
theorem batch_matmul_broadcast (bufa bufb : Nat → ℚ) (bB kk m k n : Nat)
    (hkk : 0 < kk) (_hb : 0 < bB) (hm : 0 < m) (hn : 0 < n) :
    ∃ c, batchMatmulNaiveF32 bufa bufb (fun _x => 0)
        ⟨[bB * kk, m, k], [m * k, k, 1]⟩ ⟨[bB, k, n], [k * n, n, 1]⟩ = some c ∧
      (∀ bi < bB * kk, ∀ mi < m, ∀ ni < n,
        c (bi * (m * n) + mi * n + ni) =
          sumRange k (fun ki => bufa (bi * (m * k) + mi * k + ki) *
            bufb (bi % bB * (k * n) + ki * n + ni))) ∧
      (∀ j < kk, ∃ cj,
        batchMatmulNaiveF32 (shiftMem bufa (j * bB * (m * k))) bufb (fun _x => 0)
          ⟨[bB, m, k], [m * k, k, 1]⟩ ⟨[bB, k, n], [k * n, n, 1]⟩ = some cj ∧
        ∀ bi < bB, ∀ mi < m, ∀ ni < n,
          c ((j * bB + bi) * (m * n) + mi * n + ni) =
            cj (bi * (m * n) + mi * n + ni)) := by
  have hba : bB ≤ bB * kk := by
    calc bB = bB * 1 := by ring
    _ ≤ bB * kk := Nat.mul_le_mul_left bB hkk
  obtain ⟨c, hc, hcell⟩ := batchMatmulNaiveF32_closed bufa bufb (fun _x => 0)
    (bB * kk) m k n bB (m * k) k 1 (k * n) n 1 hba hm hn
  refine ⟨c, hc, ?_, ?_⟩
  · intro bi hbi mi hmi ni hni
    rw [hcell bi hbi mi hmi ni hni]
    simp only [zero_add]
    exact sumRange_congr k _ _ (fun ki => by simp only [Nat.mul_one])
  · intro j hj
    obtain ⟨cj, hcj, hcjcell⟩ := batchMatmulNaiveF32_closed
      (shiftMem bufa (j * bB * (m * k))) bufb (fun _x => 0)
      bB m k n bB (m * k) k 1 (k * n) n 1 le_rfl hm hn
    refine ⟨cj, hcj, ?_⟩
    intro bi hbi mi hmi ni hni
    have hbi2 : j * bB + bi < bB * kk := by
      calc j * bB + bi < j * bB + bB := by omega
      _ = (j + 1) * bB := by ring
      _ ≤ kk * bB := Nat.mul_le_mul_right bB (by omega)
      _ = bB * kk := by ring
    rw [hcell (j * bB + bi) hbi2 mi hmi ni hni, hcjcell bi hbi mi hmi ni hni]
    simp only [zero_add]
    exact sumRange_congr k _ _ (fun ki => by
      simp only [shiftMem]
      have h1 : (j * bB + bi) * (m * k) + mi * k + ki * 1 =
          j * bB * (m * k) + (bi * (m * k) + mi * k + ki * 1) := by ring
      have h2 : (j * bB + bi) % bB = bi % bB := by
        rw [show j * bB + bi = bB * j + bi from by ring, Nat.mul_add_mod]
      rw [h1, h2])

/-- C4 witness: the broadcast theorem instantiated at `b_batch = 1`,
`kk = 2`, `m = k = n = 1`, with A the index function and B constantly 1. -/
theorem batch_matmul_broadcast_witness :
    ∃ c, batchMatmulNaiveF32 (fun i => (i : ℚ)) (fun _x => 1) (fun _x => 0)
        ⟨[1 * 2, 1, 1], [1 * 1, 1, 1]⟩ ⟨[1, 1, 1], [1 * 1, 1, 1]⟩ = some c ∧
      (∀ bi < 1 * 2, ∀ mi < 1, ∀ ni < 1,
        c (bi * (1 * 1) + mi * 1 + ni) =
          sumRange 1 (fun ki =>
            ((bi * (1 * 1) + mi * 1 + ki : Nat) : ℚ) * 1)) ∧
      (∀ j < 2, ∃ cj,
        batchMatmulNaiveF32 (shiftMem (fun i => (i : ℚ)) (j * 1 * (1 * 1)))
          (fun _x => 1) (fun _x => 0)
          ⟨[1, 1, 1], [1 * 1, 1, 1]⟩ ⟨[1, 1, 1], [1 * 1, 1, 1]⟩ = some cj ∧
        ∀ bi < 1, ∀ mi < 1, ∀ ni < 1,
          c ((j * 1 + bi) * (1 * 1) + mi * 1 + ni) =
            cj (bi * (1 * 1) + mi * 1 + ni)) :=
  batch_matmul_broadcast (fun i => (i : ℚ)) (fun _x => 1) 1 2 1 1 1
    (by norm_num) (by norm_num) (by norm_num) (by norm_num)

set_option maxRecDepth 10000 in
/-- C9: the two-block buffer of the S2 scenario.  Scales are both 3.0,
`qs₀ = [2,3,4,1×28,7]`, `qs₁ = [1×30,9,9]`; iterating the full range with
step 1 yields exactly `[6,9,12,3×28,21,3×30,27,27]` (64 elements), and
iterating from the non-block-aligned offset 10 yields 54 elements. -/
theorem iter_range_q8_0_two_block_buffer :
    (iterRangeQ8_0 (quantBufQ8_0FromBytes 68
        [⟨3, [2, 3, 4] ++ List.replicate 28 1 ++ [7]⟩,
         ⟨3, List.replicate 30 1 ++ [9, 9]⟩]).blocks 0
      (quantBufQ8_0FromBytes 68
        [⟨3, [2, 3, 4] ++ List.replicate 28 1 ++ [7]⟩,
         ⟨3, List.replicate 30 1 ++ [9, 9]⟩]).len 1 =
      [6, 9, 12] ++ List.replicate 28 3 ++ [21] ++ List.replicate 30 3 ++ [27, 27]) ∧
    ([(6 : ℚ), 9, 12] ++ List.replicate 28 3 ++ [21] ++ List.replicate 30 3
        ++ [27, 27]).length = 64 ∧
    (iterRangeQ8_0 (quantBufQ8_0FromBytes 68
        [⟨3, [2, 3, 4] ++ List.replicate 28 1 ++ [7]⟩,
         ⟨3, List.replicate 30 1 ++ [9, 9]⟩]).blocks 10
      (quantBufQ8_0FromBytes 68
        [⟨3, [2, 3, 4] ++ List.replicate 28 1 ++ [7]⟩,
         ⟨3, List.replicate 30 1 ++ [9, 9]⟩]).len 1).length = 54 := by
  refine ⟨?_, by simp, ?_⟩
  · norm_num [iterRangeQ8_0, iterRangeAuxQ8_0, iterValQ8_0_eq, quantBufQ8_0FromBytes,
      QuantBufQ8_0.len, List.getD, List.replicate]
  · norm_num [iterRangeQ8_0_length, quantBufQ8_0FromBytes, QuantBufQ8_0.len]

end Crabml
